import Mathlib

/-!
Verification of the hypothesis-fspaths path-generation strategy.

The Python source (hypothesis_fspaths.py) defines a Hypothesis strategy
producing filesystem path values.  We embed the generation pipeline
shallowly: every Hypothesis draw becomes an explicit argument, Python
bytes/str values become tagged lists of byte values / codepoints, and the
partial Python operations (concatenation and join, which raise TypeError
on mixed representations) become Option-valued functions.  The platform
modelled is the posix branch of the source (the branch taken when
os.name is not nt): sep is the slash character, altsep is None,
curdir is a dot, pardir is two dots, extsep is a dot, and the
filesystem encoding is UTF-8 with the surrogateescape error handler.
-/

set_option maxRecDepth 10000

namespace FsPaths

/-- The result representation chosen by the strategy: Python bytes or
Python text, mirroring result_type = draw(sampled_from([bytes, text_type])). -/
inductive ResultType
  | bytes
  | text
  deriving DecidableEq, Repr

/-- A Python string value: either a bytes object (list of byte values)
or a text object (list of unicode codepoints). -/
inductive PyVal
  | bytes (l : List Nat)
  | text (l : List Nat)
  deriving DecidableEq, Repr

/-- The representation tag of a Python string value. -/
def PyVal.rt : PyVal → ResultType
  | .bytes _ => .bytes
  | .text _ => .text

/-- The underlying sequence of a Python string value. -/
def PyVal.data : PyVal → List Nat
  | .bytes l => l
  | .text l => l

/-- Builds a value of the given representation from a sequence; this is
the shape of the result of str_to_path in the source (ASCII literals
encode and decode losslessly, so the codepoint list is unchanged). -/
def tp (rt : ResultType) (s : List Nat) : PyVal :=
  match rt with
  | .bytes => .bytes s
  | .text => .text s

/-- Embedding of the source helper str_to_path: given an ASCII str,
returns a path value of the requested type. -/
def str_to_path (s : List Nat) (result_type : ResultType) : PyVal :=
  tp result_type s

/-- Python concatenation of two string values; raises TypeError (none)
when the representations differ. -/
def PyVal.concat : PyVal → PyVal → Option PyVal
  | .bytes a, .bytes b => some (.bytes (a ++ b))
  | .text a, .text b => some (.text (a ++ b))
  | _, _ => none

/-- Semantics of Python sep.join on the underlying sequences: the
separator sequence is inserted between consecutive elements. -/
def sepJoin (sep : List Nat) : List (List Nat) → List Nat
  | [] => []
  | [x] => x
  | x :: y :: rest => x ++ sep ++ sepJoin sep (y :: rest)

/-- Python sep.join(l) on tagged values: every element must share the
separator's representation, otherwise TypeError (none). -/
def pyJoin (sep : PyVal) (l : List PyVal) : Option PyVal :=
  if l.all (fun x => x.rt = sep.rt) then
    some (tp sep.rt (sepJoin sep.data (l.map PyVal.data)))
  else
    none

/-- Platform constant: os.sep on posix is the slash character. -/
def posixSep : List Nat := [47]

/-- Platform constant: os.altsep on posix is None. -/
def posixAltsep : Option (List Nat) := none

/-- Platform constant: os.curdir is a single dot. -/
def posixCurdir : List Nat := [46]

/-- Platform constant: os.pardir is two dots. -/
def posixPardir : List Nat := [46, 46]

/-- Platform constant: os.extsep is a single dot. -/
def posixExtsep : List Nat := [46]

/-!
UTF-8 decoding with the surrogateescape error handler, modelling the
Python call bytes.decode(sys.getfilesystemencoding(), "surrogateescape")
on a posix system whose filesystem encoding is UTF-8.  Strict UTF-8
rejects overlong encodings, encoded surrogates and out-of-range
codepoints; the surrogateescape handler maps each offending byte b in
the range 0x80..0xFF to the lone surrogate 0xDC00 + b, and fails (none)
on any value outside the byte range.
-/

/-- The surrogateescape error handler applied to one byte. -/
def escByte (b : Nat) (rest : List Nat) : Option (Nat × List Nat) :=
  if b ≤ 0xFF then some (0xDC00 + b, rest) else none

/-- Lower bound for the second byte of a three-byte UTF-8 sequence. -/
def cont3lo (b : Nat) : Nat := if b = 0xE0 then 0xA0 else 0x80

/-- Upper bound for the second byte of a three-byte UTF-8 sequence. -/
def cont3hi (b : Nat) : Nat := if b = 0xED then 0x9F else 0xBF

/-- Lower bound for the second byte of a four-byte UTF-8 sequence. -/
def cont4lo (b : Nat) : Nat := if b = 0xF0 then 0x90 else 0x80

/-- Upper bound for the second byte of a four-byte UTF-8 sequence. -/
def cont4hi (b : Nat) : Nat := if b = 0xF4 then 0x8F else 0xBF

/-- One step of UTF-8 decoding with surrogateescape: consumes the first
byte b (already removed from the input) plus as many following bytes as
form a valid sequence, and returns the decoded codepoint together with
the remaining input.  Invalid or truncated sequences escape the single
byte b. -/
def utf8Step (b : Nat) (rest : List Nat) : Option (Nat × List Nat) :=
  if b ≤ 0x7F then
    some (b, rest)
  else if b ≤ 0xC1 then
    escByte b rest
  else if b ≤ 0xDF then
    match rest with
    | c1 :: r2 =>
      if 0x80 ≤ c1 ∧ c1 ≤ 0xBF then
        some ((b - 0xC0) * 64 + (c1 - 0x80), r2)
      else escByte b rest
    | _ => escByte b rest
  else if b ≤ 0xEF then
    match rest with
    | c1 :: c2 :: r2 =>
      if (cont3lo b ≤ c1 ∧ c1 ≤ cont3hi b) ∧ (0x80 ≤ c2 ∧ c2 ≤ 0xBF) then
        some ((b - 0xE0) * 4096 + (c1 - 0x80) * 64 + (c2 - 0x80), r2)
      else escByte b rest
    | _ => escByte b rest
  else if b ≤ 0xF4 then
    match rest with
    | c1 :: c2 :: c3 :: r2 =>
      if (cont4lo b ≤ c1 ∧ c1 ≤ cont4hi b) ∧
          (0x80 ≤ c2 ∧ c2 ≤ 0xBF) ∧ (0x80 ≤ c3 ∧ c3 ≤ 0xBF) then
        some ((b - 0xF0) * 262144 + (c1 - 0x80) * 4096 +
          (c2 - 0x80) * 64 + (c3 - 0x80), r2)
      else escByte b rest
    | _ => escByte b rest
  else
    escByte b rest

theorem utf8Step_suffix (b : Nat) (rest : List Nat) (c : Nat) (r2 : List Nat)
    (h : utf8Step b rest = some (c, r2)) : r2 <:+ rest := by
  unfold utf8Step escByte at h
  split_ifs at h <;>
    (try (split at h <;> (try split_ifs at h))) <;>
    first
      | (injection h with h1; cases h1;
         first
           | exact List.suffix_rfl
           | exact List.suffix_cons _ _
           | exact (List.suffix_cons _ _).trans (List.suffix_cons _ _)
           | exact ((List.suffix_cons _ _).trans
               (List.suffix_cons _ _)).trans (List.suffix_cons _ _))
      | simp at h

theorem utf8Step_len (b : Nat) (rest : List Nat) (c : Nat) (r2 : List Nat)
    (h : utf8Step b rest = some (c, r2)) : r2.length ≤ rest.length :=
  (utf8Step_suffix b rest c r2 h).length_le

theorem utf8Step_total (b : Nat) (rest : List Nat) (h : b ≤ 0xFF) :
    (utf8Step b rest).isSome := by
  unfold utf8Step escByte
  split_ifs <;>
    (try (split <;> (try split_ifs))) <;>
    first | rfl | omega

theorem utf8Step_pos (b : Nat) (rest : List Nat) (c : Nat) (r2 : List Nat)
    (h : utf8Step b rest = some (c, r2)) (hb : 1 ≤ b) : 1 ≤ c := by
  unfold utf8Step escByte at h
  split_ifs at h <;>
    (try (split at h <;> (try split_ifs at h))) <;>
    first
      | (injection h with h1; cases h1;
         (try simp only [cont3lo, cont3hi, cont4lo, cont4hi] at *) <;>
         (try split_ifs at *) <;> omega)
      | simp at h

/-- Fuel-indexed UTF-8 decoding of a byte sequence under the
surrogateescape error handler; each step consumes at least one input
value, so any fuel at least the input length suffices.  The decoder
returns none only on fuel exhaustion or when an input value lies
outside the byte range (the situation in which the real handler would
itself raise). -/
def decodeSEAux : Nat → List Nat → Option (List Nat)
  | _, [] => some []
  | 0, _ :: _ => none
  | fuel + 1, b :: rest =>
    match utf8Step b rest with
    | none => none
    | some (c, r2) => (decodeSEAux fuel r2).map (fun t => c :: t)

/-- UTF-8 decoding with the surrogateescape error handler. -/
def decodeSE (l : List Nat) : Option (List Nat) := decodeSEAux l.length l

theorem decodeSEAux_isSome : ∀ (fuel : Nat) (l : List Nat), l.length ≤ fuel →
    (∀ x ∈ l, x ≤ 0xFF) → (decodeSEAux fuel l).isSome := by
  intro fuel
  induction fuel with
  | zero =>
    intro l hl _
    have : l = [] := List.length_eq_zero.mp (Nat.le_zero.mp hl)
    subst this
    simp [decodeSEAux]
  | succ n ih =>
    intro l hl hmem
    match l with
    | [] => simp [decodeSEAux]
    | b :: rest =>
      rw [decodeSEAux]
      split
      next heq =>
        have htot := utf8Step_total b rest (hmem b (List.mem_cons_self b rest))
        rw [heq] at htot
        simp at htot
      next c r2 heq =>
        have hsuf := utf8Step_suffix b rest c r2 heq
        have hlen : r2.length ≤ n := by
          have := hsuf.length_le
          simp only [List.length_cons] at hl
          omega
        have hmem2 : ∀ x ∈ r2, x ≤ 0xFF := fun x hx =>
          hmem x (List.mem_cons_of_mem b (hsuf.subset hx))
        obtain ⟨t, ht⟩ := Option.isSome_iff_exists.mp (ih r2 hlen hmem2)
        rw [ht]
        rfl

theorem decodeSE_isSome (l : List Nat) (h : ∀ x ∈ l, x ≤ 0xFF) :
    (decodeSE l).isSome :=
  decodeSEAux_isSome l.length l (Nat.le_refl _) h

theorem decodeSEAux_pos : ∀ (fuel : Nat) (l out : List Nat),
    decodeSEAux fuel l = some out → (∀ x ∈ l, 1 ≤ x) → ∀ c ∈ out, 1 ≤ c := by
  intro fuel
  induction fuel with
  | zero =>
    intro l out hdec _
    match l with
    | [] =>
      simp only [decodeSEAux, Option.some.injEq] at hdec
      subst hdec
      intro c hc
      exact absurd hc (List.not_mem_nil c)
    | b :: rest => cases hdec
  | succ n ih =>
    intro l out hdec hmem
    match l with
    | [] =>
      simp only [decodeSEAux, Option.some.injEq] at hdec
      subst hdec
      intro c hc
      exact absurd hc (List.not_mem_nil c)
    | b :: rest =>
      rw [decodeSEAux] at hdec
      split at hdec
      next heq => cases hdec
      next c0 r2 heq =>
        rw [Option.map_eq_some'] at hdec
        obtain ⟨t, hrec, hout⟩ := hdec
        have hout2 : out = c0 :: t := by simpa using hout.symm
        have hsuf := utf8Step_suffix b rest c0 r2 heq
        have hmem2 : ∀ x ∈ r2, 1 ≤ x := fun x hx =>
          hmem x (List.mem_cons_of_mem b (hsuf.subset hx))
        have hc0 : 1 ≤ c0 :=
          utf8Step_pos b rest c0 r2 heq (hmem b (List.mem_cons_self b rest))
        rw [hout2]
        intro c hc
        rcases List.mem_cons.mp hc with hc | hc
        · subst hc; exact hc0
        · exact ih r2 t hrec hmem2 c hc

theorem decodeSE_pos (l out : List Nat) (hdec : decodeSE l = some out)
    (hmem : ∀ x ∈ l, 1 ≤ x) : ∀ c ∈ out, 1 ≤ c :=
  decodeSEAux_pos l.length l out hdec hmem

/-!
The segment generator filename (posix branch).  The bytes strategy draws
a text value over the alphabet of codepoints 0x01..0xFF and encodes it
with latin-1, so a bytes draw is just a list of values in 1..255.  The
text strategy decodes such a byte string with the filesystem encoding
under surrogateescape and then draws a permutation of the decoded
characters.  A FilenameDraw packages the entropy of one segment draw.
-/

/-- Entropy consumed by one draw of the segment generator: the codepoint
list backing the bytes strategy, and the permuted character list backing
the text strategy. -/
structure FilenameDraw where
  cs : List Nat
  tperm : List Nat
  deriving DecidableEq, Repr

/-- Validity of a segment draw: the drawn codepoints lie in the alphabet
0x01..0xFF of the posix branch, and the text draw is a permutation of the
surrogateescape decoding of the drawn bytes. -/
def ValidFilenameDraw (d : FilenameDraw) : Prop :=
  (∀ c ∈ d.cs, 1 ≤ c ∧ c ≤ 0xFF) ∧ d.tperm.Perm ((decodeSE d.cs).getD [])

instance (d : FilenameDraw) : Decidable (ValidFilenameDraw d) := by
  unfold ValidFilenameDraw
  infer_instance

/-- Embedding of the source strategy filename, posix branch: returns the
segment value of the requested representation. -/
def filename (result_type : ResultType) (d : FilenameDraw) : PyVal :=
  match result_type with
  | .bytes => .bytes d.cs
  | .text => .text d.tperm

/-- Entropy of one path component: one_of(normal_component,
special_component), where the special component is
sampled_from([tp(os.curdir), tp(os.pardir)]). -/
inductive CompDraw
  | normal (d : FilenameDraw)
  | special (pardir : Bool)
  deriving DecidableEq, Repr

/-- Validity of a component draw. -/
def ValidCompDraw : CompDraw → Prop
  | .normal d => ValidFilenameDraw d
  | .special _ => True

instance (c : CompDraw) : Decidable (ValidCompDraw c) := by
  cases c <;> unfold ValidCompDraw <;> infer_instance

/-- Value of one path component in the requested representation. -/
def component_val (rt : ResultType) : CompDraw → PyVal
  | .normal d => filename rt d
  | .special pard => tp rt (if pard then posixPardir else posixCurdir)

/-- Embedding of path_root, posix branch: the source returns
tp(os.sep) without consuming entropy. -/
def path_root (rt : ResultType) : PyVal := tp rt posixSep

/-- The separator sequence chosen by
sampled_from([os.sep, os.altsep or os.sep]): on posix altsep is None so
both candidates are os.sep. -/
def sepData (choice : Bool) : List Nat :=
  if choice then posixAltsep.getD posixSep else posixSep

/-- The separator value in the requested representation. -/
def sep_val (rt : ResultType) (choice : Bool) : PyVal := tp rt (sepData choice)

/-- Embedding of the extension strategy:
normal_component.map(lambda f: tp(os.extsep) + f). -/
def extension_val (rt : ResultType) (d : FilenameDraw) : Option PyVal :=
  (tp rt posixExtsep).concat (filename rt d)

/-- Entropy consumed by one draw of the main strategy body of fspaths. -/
structure FsDraws where
  result_type : ResultType
  use_root : Bool
  sepChoice : Bool
  comps : List CompDraw
  use_ext : Bool
  ext : FilenameDraw
  deriving DecidableEq, Repr

/-- Validity of a full draw. -/
def ValidDraws (d : FsDraws) : Prop :=
  (∀ c ∈ d.comps, ValidCompDraw c) ∧ ValidFilenameDraw d.ext

instance (d : FsDraws) : Decidable (ValidDraws d) := by
  unfold ValidDraws
  infer_instance

/-- Embedding of path_part:
builds(lambda s, l: s.join(l), sep, lists(path_component)). -/
def path_part_val (rt : ResultType) (choice : Bool) (comps : List CompDraw) :
    Option PyVal :=
  pyJoin (sep_val rt choice) (comps.map (component_val rt))

/-- Embedding of optional(st) = one_of(st, just(result_type())): either
the drawn value or the empty value of the representation. -/
def optional_val (rt : ResultType) (keep : Bool) (v : PyVal) : PyVal :=
  if keep then v else tp rt []

/-- Embedding of main_strategy before filtering:
builds(lambda *x: tp().join(x), optional(root), path_part,
optional(extension)). -/
def main_val (d : FsDraws) : Option PyVal :=
  (path_part_val d.result_type d.sepChoice d.comps).bind fun pp =>
    (if d.use_ext then extension_val d.result_type d.ext
      else some (tp d.result_type [])).bind fun ex =>
      pyJoin (tp d.result_type [])
        [optional_val d.result_type d.use_root (path_root d.result_type), pp, ex]

/-- Outcome of the os.lstat call made by the existence probe. -/
inductive LstatOutcome
  | success
  | oserror
  | valueError
  deriving DecidableEq, Repr

/-- Embedding of check_not_exists in the source: true exactly when
os.lstat raised OSError; a ValueError (too long a path on Windows) and a
successful stat both yield false, so the candidate is rejected. -/
def check_not_exists : LstatOutcome → Bool
  | .oserror => true
  | .valueError => false
  | .success => false

/-- Whether a path length exceeds the platform length limit (the
condition under which os.lstat raises ValueError on Windows; posix has
no such limit, modelled by none). -/
def overLimit (lengthLimit : Option Nat) (n : Nat) : Bool :=
  match lengthLimit with
  | some lim => decide (lim < n)
  | none => false

/-- Model of the os.lstat runtime call (Python standard library, not
part of this repository): the empty path raises OSError (ENOENT), a path
beyond the platform length limit raises ValueError, and otherwise the
call succeeds exactly when an entry exists at that path. -/
def lstatModel (entryExists : List Nat → Bool) (lengthLimit : Option Nat)
    (p : PyVal) : LstatOutcome :=
  if p.data.length = 0 then .oserror
  else if overLimit lengthLimit p.data.length then .valueError
  else if entryExists p.data then .success else .oserror

/-- The runtime capabilities and filesystem visible to one draw. -/
structure Env where
  has_pathlike : Bool
  has_fspath : Bool
  lstat : PyVal → LstatOutcome

/-- The usage error raised by fspaths. -/
inductive PyErr
  | invalidArgument
  deriving DecidableEq, Repr

/-- A produced value: a raw bytes/text value or a PathLike wrapper
around one (the class PathLike stores the wrapped value and returns it
unchanged from its fspath method). -/
inductive FsResult
  | plain (v : PyVal)
  | pathlike (v : PyVal)
  deriving DecidableEq, Repr

/-- The bytes/text value underlying a produced result. -/
def FsResult.underlying : FsResult → PyVal
  | .plain v => v
  | .pathlike v => v

/-- Embedding of the strategy body of fspaths.  The argument checks run
before any entropy is consumed; the filter rejecting existing paths is
modelled by returning ok none (the engine redraws); wrapDraw models the
one_of choice between the filtered strategy and its PathLike-mapped
copy. -/
def fspaths (env : Env) (allow_pathlike : Option Bool)
    (allow_existing : Bool) (d : FsDraws) (wrapDraw : Bool) :
    Except PyErr (Option FsResult) :=
  let ap := allow_pathlike.getD env.has_pathlike
  if ap && !env.has_pathlike then
    .error .invalidArgument
  else
    match main_val d with
    | none => .ok none
    | some v =>
      if !allow_existing && !check_not_exists (env.lstat v) then .ok none
      else if ap && env.has_fspath && wrapDraw then .ok (some (.pathlike v))
      else .ok (some (.plain v))

/-!
Structural lemmas about the assembled candidate.
-/

theorem tp_rt (rt : ResultType) (s : List Nat) : (tp rt s).rt = rt := by
  cases rt <;> rfl

theorem tp_data (rt : ResultType) (s : List Nat) : (tp rt s).data = s := by
  cases rt <;> rfl

theorem filename_rt (rt : ResultType) (d : FilenameDraw) :
    (filename rt d).rt = rt := by
  cases rt <;> rfl

theorem component_rt (rt : ResultType) (c : CompDraw) :
    (component_val rt c).rt = rt := by
  cases c with
  | normal d => exact filename_rt rt d
  | special p => exact tp_rt rt _

theorem concat_same (rt : ResultType) (v w : PyVal) (hv : v.rt = rt)
    (hw : w.rt = rt) : v.concat w = some (tp rt (v.data ++ w.data)) := by
  cases v <;> cases w <;> cases rt <;>
    simp_all [PyVal.concat, PyVal.rt, PyVal.data, tp]

theorem pyJoin_same (rt : ResultType) (sep : PyVal) (l : List PyVal)
    (hs : sep.rt = rt) (hl : ∀ x ∈ l, x.rt = rt) :
    pyJoin sep l = some (tp rt (sepJoin sep.data (l.map PyVal.data))) := by
  unfold pyJoin
  rw [if_pos, hs]
  simp only [List.all_eq_true, decide_eq_true_eq]
  intro x hx
  rw [hl x hx, hs]

/-- The root part of the candidate, following the decomposition in the
spec: an optional root (the posix root is the separator itself). -/
def rootData (d : FsDraws) : List Nat :=
  if d.use_root then posixSep else []

/-- The body part of the candidate, following the decomposition in the
spec: zero or more components joined by the drawn separator. -/
def bodyData (d : FsDraws) : List Nat :=
  sepJoin (sepData d.sepChoice)
    (d.comps.map (fun c => (component_val d.result_type c).data))

/-- The extension part of the candidate, following the decomposition in
the spec: optionally the extension separator followed by a segment. -/
def extData (d : FsDraws) : List Nat :=
  if d.use_ext then posixExtsep ++ (filename d.result_type d.ext).data else []

theorem path_part_val_eq (rt : ResultType) (choice : Bool)
    (comps : List CompDraw) :
    path_part_val rt choice comps =
      some (tp rt (sepJoin (sepData choice)
        (comps.map (fun c => (component_val rt c).data)))) := by
  unfold path_part_val sep_val
  rw [pyJoin_same rt _ _ (tp_rt rt _) ?_]
  · rw [tp_data, List.map_map]
    rfl
  · intro x hx
    obtain ⟨c, _, rfl⟩ := List.mem_map.mp hx
    exact component_rt rt c

theorem extension_val_eq (rt : ResultType) (d : FilenameDraw) :
    extension_val rt d =
      some (tp rt (posixExtsep ++ (filename rt d).data)) := by
  unfold extension_val
  rw [concat_same rt _ _ (tp_rt rt _) (filename_rt rt d), tp_data]

theorem main_val_eq (d : FsDraws) :
    main_val d =
      some (tp d.result_type (rootData d ++ bodyData d ++ extData d)) := by
  unfold main_val
  rw [path_part_val_eq]
  have hext : (if d.use_ext then extension_val d.result_type d.ext
      else some (tp d.result_type [])) = some (tp d.result_type (extData d)) := by
    unfold extData
    cases hue : d.use_ext
    · simp
    · simp only [if_true]
      exact extension_val_eq d.result_type d.ext
  rw [hext]
  simp only [Option.some_bind]
  rw [pyJoin_same d.result_type _ _ (tp_rt _ _) ?_]
  · rw [tp_data]
    have hopt : (optional_val d.result_type d.use_root
        (path_root d.result_type)).data = rootData d := by
      unfold optional_val path_root rootData
      cases d.use_root <;> simp [tp_data]
    simp only [List.map_cons, List.map_nil, sepJoin, tp_data, hopt,
      List.append_nil, List.append_assoc, bodyData]
  · intro x hx
    simp only [List.mem_cons, List.not_mem_nil, or_false] at hx
    rcases hx with rfl | rfl | rfl
    · unfold optional_val
      cases d.use_root
      · simp [tp_rt]
      · simp [path_root, tp_rt]
    · exact tp_rt _ _
    · exact tp_rt _ _

theorem sepJoin_mem (sep : List Nat) (l : List (List Nat)) (x : Nat)
    (hx : x ∈ sepJoin sep l) : x ∈ sep ∨ ∃ c ∈ l, x ∈ c := by
  induction l with
  | nil => simp [sepJoin] at hx
  | cons a t ih =>
    cases t with
    | nil =>
      simp only [sepJoin] at hx
      exact Or.inr ⟨a, List.mem_cons_self a [], hx⟩
    | cons b t2 =>
      rw [sepJoin] at hx
      rcases List.mem_append.mp hx with h1 | h2
      · rcases List.mem_append.mp h1 with h3 | h4
        · exact Or.inr ⟨a, List.mem_cons_self a _, h3⟩
        · exact Or.inl h4
      · rcases ih h2 with h3 | ⟨c, hc, hxc⟩
        · exact Or.inl h3
        · exact Or.inr ⟨c, List.mem_cons_of_mem a hc, hxc⟩

theorem sepJoin_count_sep (c : Nat) (comps : List (List Nat))
    (h : ∀ x ∈ comps, c ∉ x) :
    (sepJoin [c] comps).count c = comps.length - 1 := by
  induction comps with
  | nil => rfl
  | cons a t ih =>
    cases t with
    | nil =>
      simp only [sepJoin, List.length_cons, List.length_nil]
      exact List.count_eq_zero.mpr (h a (List.mem_cons_self a []))
    | cons b t2 =>
      rw [sepJoin]
      have ha : a.count c = 0 :=
        List.count_eq_zero.mpr (h a (List.mem_cons_self a _))
      have hcc : ([c] : List Nat).count c = 1 := by simp
      have ih2 := ih (fun x hx => h x (List.mem_cons_of_mem a hx))
      simp only [List.count_append, ha, hcc, ih2, List.length_cons]
      omega

theorem sepJoin_count_other (c e : Nat) (comps : List (List Nat))
    (hne : e ≠ c) (h : ∀ x ∈ comps, e ∉ x) :
    (sepJoin [c] comps).count e = 0 := by
  rw [List.count_eq_zero]
  intro hmem
  rcases sepJoin_mem [c] comps e hmem with h1 | ⟨x, hx, hex⟩
  · exact hne (List.mem_singleton.mp h1)
  · exact h x hx hex

theorem sepData_eq (choice : Bool) : sepData choice = posixSep := by
  cases choice <;> rfl

theorem component_data_bound (c : CompDraw) (hc : ValidCompDraw c) :
    ∀ x ∈ (component_val ResultType.bytes c).data, 1 ≤ x ∧ x ≤ 0xFF := by
  cases c with
  | normal d =>
    intro x hx
    exact hc.1 x hx
  | special p =>
    intro x hx
    cases p
    · have hd : (component_val ResultType.bytes (CompDraw.special false)).data
          = [46] := rfl
      rw [hd] at hx
      simp only [List.mem_singleton] at hx
      omega
    · have hd : (component_val ResultType.bytes (CompDraw.special true)).data
          = [46, 46] := rfl
      rw [hd] at hx
      simp only [List.mem_cons, List.not_mem_nil, or_false] at hx
      rcases hx with rfl | rfl <;> omega

theorem main_data_bound (d : FsDraws) (h : ValidDraws d)
    (hrt : d.result_type = ResultType.bytes) :
    ∀ x ∈ rootData d ++ bodyData d ++ extData d, 1 ≤ x ∧ x ≤ 0xFF := by
  intro x hx
  rcases List.mem_append.mp hx with h1 | hext
  · rcases List.mem_append.mp h1 with hroot | hbody
    · unfold rootData at hroot
      rcases Bool.eq_false_or_eq_true d.use_root with hu | hu <;>
        rw [hu] at hroot <;> simp [posixSep] at hroot
      omega
    · unfold bodyData at hbody
      rcases sepJoin_mem _ _ _ hbody with hs | ⟨cdata, hcd, hxc⟩
      · rw [sepData_eq] at hs
        simp [posixSep] at hs
        omega
      · obtain ⟨comp, hcomp, rfl⟩ := List.mem_map.mp hcd
        rw [hrt] at hxc
        exact component_data_bound comp (h.1 comp hcomp) x hxc
  · unfold extData at hext
    rcases Bool.eq_false_or_eq_true d.use_ext with hu | hu <;>
      rw [hu] at hext <;> simp [posixExtsep] at hext
    rcases hext with rfl | hef
    · omega
    · rw [hrt] at hef
      exact h.2.1 x hef

/-- The value assembled by the main strategy (total form: the assembly
never fails). -/
def mainPath (d : FsDraws) : PyVal :=
  tp d.result_type (rootData d ++ bodyData d ++ extData d)

theorem fspaths_eq (env : Env) (apl : Option Bool) (ae : Bool)
    (d : FsDraws) (w : Bool) :
    fspaths env apl ae d w =
      if apl.getD env.has_pathlike && !env.has_pathlike then
        Except.error PyErr.invalidArgument
      else if !ae && !check_not_exists (env.lstat (mainPath d)) then
        Except.ok none
      else if apl.getD env.has_pathlike && env.has_fspath && w then
        Except.ok (some (FsResult.pathlike (mainPath d)))
      else
        Except.ok (some (FsResult.plain (mainPath d))) := by
  unfold fspaths mainPath
  rw [main_val_eq]

/-!
Claim theorems.
-/

/-- A draw producing the empty path value: no root, no components, no
extension. -/
def emptyDraw (rt : ResultType) : FsDraws :=
  ⟨rt, false, false, [], false, ⟨[], []⟩⟩

/-- C1: evaluation of the source probe at the failing outcome.  The
claim says a ValueError from os.lstat (path-length overflow) is
classified as non-existing so the candidate is kept; the source
check_not_exists instead returns false on ValueError, so the filter
discards the candidate exactly as it discards a confirmed-existing one
(third conjunct: with a filesystem whose lstat raises ValueError, the
draw is rejected even under allow_existing = false), while only OSError
is classified as absent. -/
theorem C1_overflow_probe_excludes :
    check_not_exists LstatOutcome.valueError = false ∧
    check_not_exists LstatOutcome.oserror = true ∧
    fspaths ⟨false, false, fun _ => LstatOutcome.valueError⟩ none false
      (emptyDraw ResultType.bytes) false = Except.ok none :=
  ⟨rfl, rfl, rfl⟩

/-- Formalization of claim C2 exactly as stated: every valid segment
draw yields a value containing neither a platform path-separator
character nor the null byte/codepoint, in both representations. -/
def segmentExcludesSepAndNul : Prop :=
  ∀ d : FilenameDraw, ValidFilenameDraw d → ∀ rt : ResultType,
    (∀ s ∈ posixSep, s ∉ (filename rt d).data) ∧
    0 ∉ (filename rt d).data

/-- C2 counterexample: the valid segment draw whose byte string is the
single separator byte 0x2F shows the segment generator can emit the
path separator (the character alphabet 0x01..0xFF of the source does
not exclude it), refuting the separator half of the claim. -/
theorem C2_counterexample : ¬ segmentExcludesSepAndNul := by
  intro hcl
  have hv : ValidFilenameDraw ⟨[47], [47]⟩ :=
    ⟨by decide, List.Perm.refl [47]⟩
  have h1 := (hcl ⟨[47], [47]⟩ hv ResultType.bytes).1 47 (by decide)
  exact h1 (by decide)

/-- C2 (amended): every segment value contains no null byte / null
codepoint in either representation (the alphabet starts at codepoint
one, and surrogateescape decoding of null-free bytes is null-free); the
path separator is not excluded by the segment generator. -/
theorem C2_segment_no_null (d : FilenameDraw) (h : ValidFilenameDraw d)
    (rt : ResultType) : 0 ∉ (filename rt d).data := by
  cases rt with
  | bytes =>
    intro h0
    have := h.1 0 h0
    omega
  | text =>
    intro h0
    have hbound : ∀ x ∈ d.cs, x ≤ 0xFF := fun x hx => (h.1 x hx).2
    have hpos : ∀ x ∈ d.cs, 1 ≤ x := fun x hx => (h.1 x hx).1
    obtain ⟨out, hout⟩ :=
      Option.isSome_iff_exists.mp (decodeSE_isSome d.cs hbound)
    have h0m : 0 ∈ (decodeSE d.cs).getD [] := h.2.mem_iff.mp h0
    rw [hout] at h0m
    simp only [Option.getD_some] at h0m
    have := decodeSE_pos d.cs out hout hpos 0 h0m
    omega

/-- C2 witness: the amended no-null theorem applied at a concrete valid
segment draw, in the text representation. -/
theorem C2_segment_no_null_witness :
    ValidFilenameDraw ⟨[47], [47]⟩ ∧
    0 ∉ (filename ResultType.text ⟨[47], [47]⟩).data := by
  have hv : ValidFilenameDraw ⟨[47], [47]⟩ :=
    ⟨by decide, List.Perm.refl [47]⟩
  exact ⟨hv, C2_segment_no_null ⟨[47], [47]⟩ hv ResultType.text⟩

/-- C3: every bytes value assembled by the strategy consists of byte
values only, hence decodes without raising under the filesystem
encoding with the surrogateescape error policy. -/
theorem C3_bytes_decodable (d : FsDraws) (h : ValidDraws d) (l : List Nat)
    (hv : main_val d = some (PyVal.bytes l)) : (decodeSE l).isSome := by
  have hme := main_val_eq d
  rw [hme] at hv
  cases hrt : d.result_type with
  | text =>
    rw [hrt] at hv
    cases Option.some.inj hv
  | bytes =>
    rw [hrt] at hv
    have hD : rootData d ++ bodyData d ++ extData d = l :=
      PyVal.bytes.inj (Option.some.inj hv)
    subst hD
    apply decodeSE_isSome
    intro x hx
    exact (main_data_bound d h hrt x hx).2

/-- C3 witness: the decodability theorem applied at a concrete valid
draw producing the empty bytes value. -/
theorem C3_bytes_decodable_witness :
    ValidDraws (emptyDraw ResultType.bytes) ∧
    main_val (emptyDraw ResultType.bytes) = some (PyVal.bytes []) ∧
    (decodeSE []).isSome := by
  have hvd : ValidDraws (emptyDraw ResultType.bytes) := by
    refine ⟨?_, by decide, List.Perm.refl []⟩
    intro c hc
    cases hc
  exact ⟨hvd, rfl, C3_bytes_decodable _ hvd [] rfl⟩

/-- C4: under allow_existing = false, every produced value passed the
existence filter: the probe on its underlying value reports absent
(check_not_exists is true, i.e. os.lstat raised OSError), so the lstat
call never succeeded; contrapositively every candidate whose lstat
succeeds is filtered out. -/
theorem C4_produced_not_existing (env : Env) (apl : Option Bool)
    (d : FsDraws) (w : Bool) (r : FsResult)
    (h : fspaths env apl false d w = Except.ok (some r)) :
    check_not_exists (env.lstat r.underlying) = true ∧
    env.lstat r.underlying ≠ LstatOutcome.success := by
  rw [fspaths_eq] at h
  split_ifs at h with h1 h2 h3
  · cases h
  all_goals
    have hc : check_not_exists (env.lstat (mainPath d)) = true := by
      simpa using h2
  all_goals
    have hr := (Option.some.inj (Except.ok.inj h)).symm
  all_goals
    subst hr
    refine ⟨hc, fun hs => ?_⟩
    have hs2 : env.lstat (mainPath d) = LstatOutcome.success := hs
    rw [hs2] at hc
    simp [check_not_exists] at hc

/-- C4 witness: the theorem applied to a concrete environment whose
lstat always reports OSError and to the empty draw. -/
theorem C4_produced_not_existing_witness :
    fspaths ⟨false, false, fun _ => LstatOutcome.oserror⟩ none false
      (emptyDraw ResultType.bytes) false =
      Except.ok (some (FsResult.plain (PyVal.bytes []))) ∧
    check_not_exists LstatOutcome.oserror = true :=
  ⟨rfl,
    (C4_produced_not_existing ⟨false, false, fun _ => LstatOutcome.oserror⟩
      none (emptyDraw ResultType.bytes) false
      (FsResult.plain (PyVal.bytes [])) rfl).1⟩

/-- C5: explicitly forcing wrapper-object generation on a runtime
without os.PathLike raises InvalidArgument for every possible draw (the
check precedes all entropy consumption), while allow_pathlike = None
never raises on any runtime. -/
theorem C5_pathlike_usage_error (hf : Bool) (lstat : PyVal → LstatOutcome)
    (ae : Bool) (d : FsDraws) (w : Bool) (env : Env) :
    fspaths ⟨false, hf, lstat⟩ (some true) ae d w =
      Except.error PyErr.invalidArgument ∧
    ∃ o, fspaths env none ae d w = Except.ok o := by
  constructor
  · rw [fspaths_eq]
    rfl
  · rw [fspaths_eq]
    simp only [Option.getD_none, Bool.and_not_self, Bool.false_eq_true,
      if_false]
    split_ifs <;> exact ⟨_, rfl⟩

/-- C6: with allow_pathlike = False every draw yields either a rejected
candidate or a raw bytes/text value, never a PathLike wrapper and never
a usage error. -/
theorem C6_no_pathlike_when_disabled (env : Env) (ae : Bool) (d : FsDraws)
    (w : Bool) :
    fspaths env (some false) ae d w = Except.ok none ∨
    ∃ v, fspaths env (some false) ae d w =
      Except.ok (some (FsResult.plain v)) := by
  rw [fspaths_eq]
  simp only [Option.getD_some, Bool.false_and, Bool.false_eq_true, if_false]
  split_ifs
  · exact Or.inl rfl
  · exact Or.inr ⟨_, rfl⟩

/-- C7: the drawn representation governs every sub-part of the
candidate: root, separator, every component and the extension all carry
it, the assembly never raises a mixed-representation TypeError, and the
assembled value carries the drawn representation. -/
theorem C7_single_representation (d : FsDraws) :
    (path_root d.result_type).rt = d.result_type ∧
    (sep_val d.result_type d.sepChoice).rt = d.result_type ∧
    (∀ c ∈ d.comps, (component_val d.result_type c).rt = d.result_type) ∧
    (∃ e, extension_val d.result_type d.ext = some e ∧
      e.rt = d.result_type) ∧
    (∃ v, main_val d = some v ∧ v.rt = d.result_type) := by
  refine ⟨tp_rt _ _, tp_rt _ _, ?_, ?_, ?_⟩
  · intro c _
    exact component_rt d.result_type c
  · exact ⟨_, extension_val_eq d.result_type d.ext, tp_rt _ _⟩
  · exact ⟨_, main_val_eq d, tp_rt _ _⟩

/-- C7 witness: the single-representation theorem applied at a concrete
draw in the text representation. -/
theorem C7_single_representation_witness :
    ∃ v, main_val (emptyDraw ResultType.text) = some v ∧
      v.rt = ResultType.text :=
  (C7_single_representation (emptyDraw ResultType.text)).2.2.2.2

/-- C8: every assembled candidate equals optional root, then the body
joining the drawn components with the drawn separator, then the
optional extension-separator-plus-segment, concatenated in that order,
each part possibly empty. -/
theorem C8_decomposition (d : FsDraws) :
    main_val d =
      some (tp d.result_type (rootData d ++ bodyData d ++ extData d)) ∧
    rootData d = (if d.use_root then posixSep else []) ∧
    bodyData d = sepJoin (sepData d.sepChoice)
      (d.comps.map fun c => (component_val d.result_type c).data) ∧
    extData d = (if d.use_ext then
      posixExtsep ++ (filename d.result_type d.ext).data else []) :=
  ⟨main_val_eq d, rfl, rfl, rfl⟩

/-- Embedding of the separator draw
sampled_from([os.sep, os.altsep or os.sep]) for an arbitrary platform
with primary separator sep and optional alternate separator altsep (the
drawing code in the source is platform-generic). -/
def sep_choice_val (sep : List Nat) (altsep : Option (List Nat))
    (choice : Bool) : List Nat :=
  if choice then altsep.getD sep else sep

/-- Embedding of path_part:
builds(lambda s, l: s.join(l), sep, lists(path_component)): one drawn
separator joins the whole component list. -/
def path_part_data (s : List Nat) (comps : List (List Nat)) : List Nat :=
  sepJoin s comps

/-- C9: within one candidate a single separator is drawn and used at
every join position: the body equals the component list joined by that
one separator, which is one of the two platform candidates; when the
components avoid both separator characters, the chosen separator occurs
exactly at the join positions and the other separator does not occur at
all, so the two are never mixed. -/
theorem C9_single_separator (sp alt : Nat) (choice : Bool)
    (comps : List (List Nat)) (hne : sp ≠ alt)
    (hc : ∀ x ∈ comps, sp ∉ x ∧ alt ∉ x) :
    ∃ s, (s = sp ∨ s = alt) ∧
      path_part_data (sep_choice_val [sp] (some [alt]) choice) comps =
        sepJoin [s] comps ∧
      (sepJoin [s] comps).count s = comps.length - 1 ∧
      (sepJoin [s] comps).count (if s = sp then alt else sp) = 0 := by
  cases choice with
  | false =>
    refine ⟨sp, Or.inl rfl, rfl, ?_, ?_⟩
    · exact sepJoin_count_sep sp comps (fun x hx => (hc x hx).1)
    · rw [if_pos rfl]
      exact sepJoin_count_other sp alt comps (fun hq => hne hq.symm)
        (fun x hx => (hc x hx).2)
  | true =>
    refine ⟨alt, Or.inr rfl, rfl, ?_, ?_⟩
    · exact sepJoin_count_sep alt comps (fun x hx => (hc x hx).2)
    · rw [if_neg (fun hq => hne hq.symm)]
      exact sepJoin_count_other alt sp comps hne
        (fun x hx => (hc x hx).1)

/-- C9 witness: the single-separator theorem applied at the windowed
platform's separators (backslash and slash) with two one-letter
components and the alternate-separator choice. -/
theorem C9_single_separator_witness :
    ((92 : Nat) ≠ 47 ∧
      ∀ x ∈ [[97], [98]], (92 : Nat) ∉ x ∧ (47 : Nat) ∉ x) ∧
    ∃ s, (s = 92 ∨ s = 47) ∧
      path_part_data (sep_choice_val [92] (some [47]) true) [[97], [98]] =
        sepJoin [s] [[97], [98]] ∧
      (sepJoin [s] [[97], [98]]).count s = [[97], [98]].length - 1 ∧
      (sepJoin [s] [[97], [98]]).count (if s = 92 then 47 else 92) = 0 :=
  ⟨⟨by decide, by decide⟩,
    C9_single_separator 92 47 true [[97], [98]] (by decide) (by decide)⟩

/-- C10: the probe classifies the empty path as absent: the modelled
os.lstat on an empty value raises OSError, which check_not_exists turns
into true (a boolean, never a propagated exception), and consequently
the empty value remains producible under allow_existing = false. -/
theorem C10_empty_path (entries : List Nat → Bool) (lim : Option Nat)
    (rt : ResultType) (hp hf : Bool) :
    lstatModel entries lim (tp rt []) = LstatOutcome.oserror ∧
    check_not_exists (lstatModel entries lim (tp rt [])) = true ∧
    fspaths ⟨hp, hf, lstatModel entries lim⟩ none false (emptyDraw rt)
      false = Except.ok (some (FsResult.plain (tp rt []))) := by
  have hl : lstatModel entries lim (tp rt []) = LstatOutcome.oserror := by
    unfold lstatModel
    rw [tp_data]
    rfl
  refine ⟨hl, by rw [hl]; rfl, ?_⟩
  rw [fspaths_eq]
  have hmp : mainPath (emptyDraw rt) = tp rt [] := by
    cases rt <;> rfl
  rw [hmp]
  rw [show (Env.mk hp hf (lstatModel entries lim)).lstat (tp rt []) =
      LstatOutcome.oserror from hl]
  simp [check_not_exists, Bool.and_not_self]

end FsPaths
